import Mathlib

/-!
Shallow embedding of `extract_jobs.py`: a heuristic job-listing extractor
over a parsed HTML document tree.  Python strings are modelled as `List Char`
(ASCII-level model of `str.lower`, `str.strip` and the `\s` character class),
the BeautifulSoup tree as a mutual inductive of nodes and forests, and the two
`re.search` calls as explicit leftmost-match scanners that mirror the engine
semantics of the concrete patterns in the source.
-/

/-- Python strings are modelled as lists of characters. -/
abbrev Str := List Char

/-- ASCII whitespace, the model of the Python whitespace class used by
`str.strip` and the regex class in `re.sub` patterns. -/
def isSpaceChar (c : Char) : Bool :=
  c = ' ' || c = '\t' || c = '\n' || c = '\r' || c = '\x0b' || c = '\x0c'

/-- Model of `str.lower` (ASCII case folding). -/
def pyLower (s : Str) : Str := s.map Char.toLower

/-- Model of `str.strip`: drop whitespace from both ends. -/
def pyStrip (s : Str) : Str :=
  ((s.dropWhile isSpaceChar).reverse.dropWhile isSpaceChar).reverse

/-- Worker for `collapseWs`: replace each maximal whitespace run by a single
space, tracking whether the previous character was part of a run. -/
def collapseWsGo (prevSpace : Bool) : Str → Str
  | [] => []
  | c :: cs =>
    if isSpaceChar c then
      if prevSpace then collapseWsGo true cs else ' ' :: collapseWsGo true cs
    else c :: collapseWsGo false cs

/-- Model of `re.sub(r"\s+", " ", text)`. -/
def collapseWs (s : Str) : Str := collapseWsGo false s

/-- Model of `" ".join(parts)`. -/
def joinSpace : List Str → Str
  | [] => []
  | [s] => s
  | s :: rest => s ++ ' ' :: joinSpace rest

/-- Model of the Python `needle in hay` substring test. -/
def hasSub (hay needle : Str) : Bool :=
  match hay with
  | [] => needle = []
  | _ :: t => needle.isPrefixOf hay || hasSub t needle

/-- Case-insensitive literal match at the start of `s`; on success returns the
rest of the string.  Used to model the literal parts of the `re.I` patterns. -/
def stripCI (kw : Str) (s : Str) : Option Str :=
  match kw, s with
  | [], rest => some rest
  | _ :: _, [] => none
  | k :: ks, c :: cs => if c.toLower = k.toLower then stripCI ks cs else none

/-- Word characters for the regex `\b` boundary (ASCII model of `\w`). -/
def isWordChar (c : Char) : Bool := c.isAlphanum || c = '_'

/-- The characters of the regex class `[:|-]`. -/
def sepChars : List Char := [':', '|', '-']

/- ## The document tree -/

mutual
/-- A node of the parsed document: either a text node or an element with a
numeric node identity (model of CPython object identity), a tag name, class
tokens, attributes and children. -/
inductive HNode where
  | text (s : Str)
  | elem (nid : Nat) (tag : Str) (classes : List Str) (attrs : List (Str × Str))
      (children : HForest)

/-- A list of sibling nodes, as a mutual inductive so that all tree
recursions are structural. -/
inductive HForest where
  | nil
  | cons (n : HNode) (f : HForest)
end

/-- Build a forest from a list of nodes. -/
def HForest.ofList : List HNode → HForest
  | [] => .nil
  | n :: ns => .cons n (HForest.ofList ns)

/-- The tag name of an element (text nodes get the empty tag). -/
def tagOf : HNode → Str
  | .text _ => []
  | .elem _ t _ _ _ => t

/-- The class token list of a node (`node.get("class") or []`). -/
def classesOf : HNode → List Str
  | .text _ => []
  | .elem _ _ c _ _ => c

/-- The attribute association list of a node. -/
def attrsOf : HNode → List (Str × Str)
  | .text _ => []
  | .elem _ _ _ a _ => a

/-- The node identity (text nodes share the dummy identity 0; element nodes
of a well-formed tree carry pairwise distinct positive identities). -/
def nidOf : HNode → Nat
  | .text _ => 0
  | .elem i _ _ _ _ => i

/-- Whether the node is an element. -/
def isElemNode : HNode → Bool
  | .text _ => false
  | .elem _ _ _ _ _ => true

/-- The children of a node. -/
def childrenOf : HNode → HForest
  | .text _ => .nil
  | .elem _ _ _ _ f => f

/-- All element nodes of a forest in document (preorder) order. -/
def forestElems : HForest → List HNode
  | .nil => []
  | .cons (.text _) f => forestElems f
  | .cons (.elem i t c a g) f => .elem i t c a g :: forestElems g ++ forestElems f

/-- All element descendants of a node (excluding the node itself), in document
order: the model of `node.find_all(True)`. -/
def descElems : HNode → List HNode
  | .text _ => []
  | .elem _ _ _ _ f => forestElems f

/-- All text-node strings below a forest, in document order. -/
def forestTexts : HForest → List Str
  | .nil => []
  | .cons (.text s) f => s :: forestTexts f
  | .cons (.elem _ _ _ _ g) f => forestTexts g ++ forestTexts f

/-- The text fragments of a node, in document order. -/
def nodeTexts : HNode → List Str
  | .text s => [s]
  | .elem _ _ _ _ f => forestTexts f

/-- Model of `extract_visible_text`: `get_text(" ", strip=True)` strips each
text fragment, drops the empty ones and joins with single spaces; then
`re.sub(r"\s+", " ", text)` collapses the remaining whitespace runs. -/
def extract_visible_text (n : HNode) : Str :=
  collapseWs (joinSpace (((nodeTexts n).map pyStrip).filter (fun s => !s.isEmpty)))

/-- Model of `soup.find_all(tag)`: every element descendant with the tag. -/
def findAll (t : Str) (n : HNode) : List HNode :=
  (descElems n).filter (fun e => decide (tagOf e = t))

/-- Model of `soup.find(tag)`: the first element descendant with the tag. -/
def findFirst (t : Str) (n : HNode) : Option HNode :=
  (descElems n).find? (fun e => decide (tagOf e = t))

/-- Whether the node carries an `href` attribute. -/
def hasHrefAttr (n : HNode) : Bool :=
  (attrsOf n).any (fun p => decide (p.1 = "href".toList))

/-- The value of the `href` attribute, defaulting to the empty string
(the model of `(a.get("href") or "")`). -/
def hrefOf (n : HNode) : Str :=
  (((attrsOf n).find? (fun p => decide (p.1 = "href".toList))).map Prod.snd).getD []

/-- Model of `node.find_all("a", href=True)`: anchors with an href attribute,
in document order. -/
def findAllHrefAnchors (n : HNode) : List HNode :=
  (descElems n).filter (fun e => decide (tagOf e = "a".toList) && hasHrefAttr e)

/- ## Container locator -/

/-- The container tag names scanned by `find_job_containers`. -/
def containerTags : List Str :=
  ["article".toList, "li".toList, "div".toList, "section".toList]

/-- The class substrings marking a job container. -/
def jobSubs : List Str :=
  ["job".toList, "listing".toList, "result".toList, "card".toList,
   "opening".toList, "vacancy".toList, "position".toList]

/-- Model of `has_class_like`: join the class tokens with spaces, lowercase,
and test each substring. -/
def has_class_like (node : HNode) (subs : List Str) : Bool :=
  let classAttr := pyLower (joinSpace (classesOf node))
  subs.any (fun sub => hasSub classAttr sub)

/-- Whether `node.find("a")` is truthy: some anchor descendant exists. -/
def hasAnchorDesc (node : HNode) : Bool :=
  (findFirst "a".toList node).isSome

/-- Worker for the identity-based dedup at the end of `find_job_containers`. -/
def dedupByIdAux (seen : List Nat) : List HNode → List HNode
  | [] => []
  | n :: ns =>
    if nidOf n ∈ seen then dedupByIdAux seen ns
    else n :: dedupByIdAux (nidOf n :: seen) ns

/-- Model of the `uniq`/`seen` loop of `find_job_containers`. -/
def dedupById (l : List HNode) : List HNode := dedupByIdAux [] l

/-- Model of `find_job_containers`: for each container tag, keep the elements
with a job-like class and an anchor inside, then dedup by node identity. -/
def find_job_containers (soup : HNode) : List HNode :=
  dedupById (containerTags.flatMap (fun t =>
    (findAll t soup).filter (fun node => has_class_like node jobSubs && hasAnchorDesc node)))

/- ## Title extractor -/

/-- Step 1 of `choose_title`: the first href-carrying anchor whose lowered
href looks like a job link and whose visible text has length at least 5. -/
def titleAnchorStep (node : HNode) : Option HNode :=
  (findAllHrefAnchors node).find? (fun a =>
    let href := pyLower (hrefOf a)
    (hasSub href "/j/".toList ||
      (hasSub href "iimjobs.com".toList &&
        (hasSub href "/j/".toList || hasSub href "/job".toList))) &&
    decide (5 ≤ (extract_visible_text a).length))

/-- The heading levels inspected by step 2 of `choose_title`. -/
def titleLevels : List Str := ["h1".toList, "h2".toList, "h3".toList, "h4".toList]

/-- First result of an option-valued function over a list. -/
def firstSome {α β : Type} (f : α → Option β) : List α → Option β
  | [] => none
  | a :: rest =>
    match f a with
    | some b => some b
    | none => firstSome f rest

/-- Step 2 of `choose_title`: for each heading level in order, look at the
first heading of that level only; return it when its text has length at
least 5, otherwise move to the next level. -/
def headingStep (node : HNode) : Option HNode :=
  firstSome (fun lv =>
    match findFirst lv node with
    | some h => if 5 ≤ (extract_visible_text h).length then some h else none
    | none => none) titleLevels

/-- Step 3 of `choose_title`: the first anchor (href or not) with visible
text of length at least 5. -/
def titleFallback (node : HNode) : Option HNode :=
  (findAll "a".toList node).find? (fun a => decide (5 ≤ (extract_visible_text a).length))

/-- Model of `choose_title`: the three-step cascade. -/
def choose_title (node : HNode) : Option HNode :=
  match titleAnchorStep node with
  | some a => some a
  | none =>
    match headingStep node with
    | some h => some h
    | none => titleFallback node

/- ## Company extractor -/

/-- The class substrings marking a company element. -/
def companySubs : List Str :=
  ["company".toList, "employer".toList, "org".toList, "firm".toList, "recruiter".toList]

/-- Model of `choose_company`: the first descendant with a company-like class
whose visible text has length at least 2. -/
def choose_company (node : HNode) : Option Str :=
  ((descElems node).find? (fun el =>
    has_class_like el companySubs && decide (2 ≤ (extract_visible_text el).length))).map
    extract_visible_text

/- ## Location extractor -/

/-- The class substrings marking a location element. -/
def locSubs : List Str :=
  ["location".toList, "loc".toList, "city".toList, "place".toList]

/-- The capture part `\s*([^|\n]+)` of the location regex, applied after the
separator.  The greedy space run backtracks by one character when the
remainder would otherwise be empty, exactly as the regex engine does, which
yields a single-space capture. -/
def locCapture (r : Str) : Option Str :=
  let sp := r.takeWhile isSpaceChar
  let r2 := r.dropWhile isSpaceChar
  let cap := r2.takeWhile (fun c => !(c = '|' || c = '\n'))
  if !cap.isEmpty then some cap
  else if !sp.isEmpty then some [' ']
  else none

/-- The part of the location regex after the keyword: `\s*[:|-]\s*([^|\n]+)`.
The separator is required by the pattern in the source. -/
def locAfterKw (rest : Str) : Option Str :=
  match rest.dropWhile isSpaceChar with
  | [] => none
  | c :: r2 => if c ∈ sepChars then locCapture r2 else none

/-- One attempt of the location regex at a fixed position: the alternation
`(Location|City)` followed by `locAfterKw`. -/
def locTryAt (s : Str) : Option Str :=
  match stripCI "location".toList s with
  | some rest => locAfterKw rest
  | none =>
    match stripCI "city".toList s with
    | some rest => locAfterKw rest
    | none => none

/-- Leftmost search for the location pattern, carrying the previous character
for the `\b` boundary. -/
def locSearchAux (prev : Option Char) : Str → Option Str
  | [] => none
  | c :: rest =>
    let bOk := match prev with
      | none => true
      | some p => !isWordChar p
    match (if bOk then locTryAt (c :: rest) else none) with
    | some g => some g
    | none => locSearchAux (some c) rest

/-- Model of `choose_location`: class-based stage, then the regex
`\b(Location|City)\s*[:|-]\s*([^|\n]+)` over the full visible text, returning
the stripped capture. -/
def choose_location (node : HNode) : Option Str :=
  match (descElems node).find? (fun el =>
    has_class_like el locSubs && decide (2 ≤ (extract_visible_text el).length)) with
  | some el => some (extract_visible_text el)
  | none =>
    match locSearchAux none (extract_visible_text node) with
    | some g => some (pyStrip g)
    | none => none

/-- Follows the spec wording for the Location Extractor stage (b): the
separator after the marker word is OPTIONAL.  Kept solely to compare the spec
against the source behaviour. -/
def locAfterKwSpec (rest : Str) : Option Str :=
  match rest.dropWhile isSpaceChar with
  | [] => none
  | c :: r2 => if c ∈ sepChars then locCapture r2 else locCapture (c :: r2)

/-- Spec-side variant of `locTryAt` with an optional separator. -/
def locTryAtSpec (s : Str) : Option Str :=
  match stripCI "location".toList s with
  | some rest => locAfterKwSpec rest
  | none =>
    match stripCI "city".toList s with
    | some rest => locAfterKwSpec rest
    | none => none

/-- Spec-side variant of the leftmost location search. -/
def locSearchSpecAux (prev : Option Char) : Str → Option Str
  | [] => none
  | c :: rest =>
    let bOk := match prev with
      | none => true
      | some p => !isWordChar p
    match (if bOk then locTryAtSpec (c :: rest) else none) with
    | some g => some g
    | none => locSearchSpecAux (some c) rest

/- ## Experience extractor -/

/-- The class substrings marking an experience element. -/
def expSubs : List Str := ["exp".toList, "experience".toList]

/-- The numeric-range part `([0-9]+\+?\s*-?\s*[0-9]*\s*years?)` of the
experience regex, matched at the start of `s`; returns the captured source
text.  All the greedy/optional steps of this sub-pattern are deterministic
(the follow sets are disjoint), as each optional token, when present but
skipped, blocks every later token. -/
def expNumRange (s : Str) : Option Str :=
  let d1 := s.takeWhile Char.isDigit
  if d1.isEmpty then none
  else
    let s1 := s.dropWhile Char.isDigit
    let pl : Str × Str :=
      match s1 with
      | '+' :: r => (['+'], r)
      | _ => ([], s1)
    let sp1 := pl.2.takeWhile isSpaceChar
    let s2 := pl.2.dropWhile isSpaceChar
    let da : Str × Str :=
      match s2 with
      | '-' :: r => (['-'], r)
      | _ => ([], s2)
    let sp2 := da.2.takeWhile isSpaceChar
    let s3 := da.2.dropWhile isSpaceChar
    let d2 := s3.takeWhile Char.isDigit
    let s4 := s3.dropWhile Char.isDigit
    let sp3 := s4.takeWhile isSpaceChar
    let s5 := s4.dropWhile isSpaceChar
    match s5 with
    | y :: e :: a :: r :: rest =>
      if y.toLower = 'y' && e.toLower = 'e' && a.toLower = 'a' && r.toLower = 'r' then
        let sfx : Str :=
          match rest with
          | c :: _ => if c.toLower = 's' then [c] else []
          | [] => []
        some (d1 ++ pl.1 ++ sp1 ++ da.1 ++ sp2 ++ d2 ++ sp3 ++ [y, e, a, r] ++ sfx)
      else none
    | _ => none

/-- The part of the experience regex after the keyword:
`\s*[:|-]?\s*(numeric range)`.  A present separator must be consumed, since a
skipped separator character blocks every later token. -/
def expAfterKw (rest : Str) : Option Str :=
  match rest.dropWhile isSpaceChar with
  | [] => none
  | c :: r2 =>
    if c ∈ sepChars then expNumRange (r2.dropWhile isSpaceChar)
    else expNumRange (c :: r2)

/-- One attempt of the experience regex at a fixed position: the alternation
`(Exp|Experience)` tries the short keyword first and falls back to the long
one, as the regex engine does. -/
def expTryAt (s : Str) : Option Str :=
  match (match stripCI "exp".toList s with
         | some rest => expAfterKw rest
         | none => none) with
  | some cap => some cap
  | none =>
    match stripCI "experience".toList s with
    | some rest => expAfterKw rest
    | none => none

/-- Leftmost search for the experience pattern, with the `\b` boundary. -/
def expSearchAux (prev : Option Char) : Str → Option Str
  | [] => none
  | c :: rest =>
    let bOk := match prev with
      | none => true
      | some p => !isWordChar p
    match (if bOk then expTryAt (c :: rest) else none) with
    | some g => some g
    | none => expSearchAux (some c) rest

/-- Model of `choose_experience`: the regex over the full visible text first,
then the class-based scan for a non-empty text. -/
def choose_experience (node : HNode) : Option Str :=
  match expSearchAux none (extract_visible_text node) with
  | some cap => some (pyStrip cap)
  | none =>
    match (descElems node).find? (fun el =>
      has_class_like el expSubs && !(extract_visible_text el).isEmpty) with
    | some el => some (extract_visible_text el)
    | none => none

/- ## Link resolver -/

/-- The direct child nodes of a forest, as a list. -/
def forestToList : HForest → List HNode
  | .nil => []
  | .cons n f => n :: forestToList f

/-- The parent of a node inside the subtree rooted at `root`, resolved by node
identity; in a well-formed tree (distinct identities) this is the unique
parent.  Models the intrinsic `.parent` of the title element, which always
lies inside its container. -/
def parentOf (root c : HNode) : Option HNode :=
  (root :: descElems root).find? (fun n =>
    (forestToList (childrenOf n)).any (fun k =>
      isElemNode k && decide (nidOf k = nidOf c)))

/-- Model of `choose_link`: the href of the title node itself when it is an
anchor with href, else the first href-anchor descendant, else the first
href-anchor descendant of the parent. -/
def choose_link (container titleNode : HNode) : Option Str :=
  if tagOf titleNode = "a".toList ∧ hasHrefAttr titleNode = true then
    some (hrefOf titleNode)
  else
    match (findAllHrefAnchors titleNode).head? with
    | some a => some (hrefOf a)
    | none =>
      match parentOf container titleNode with
      | some parent =>
        match (findAllHrefAnchors parent).head? with
        | some a => some (hrefOf a)
        | none => none
      | none => none

/- ## URL normalizer -/

/-- Model of `absolutize`. -/
def absolutize (url : Str) : Str :=
  if url.isEmpty then url
  else if "http://".toList.isPrefixOf url || "https://".toList.isPrefixOf url then url
  else if ['/', '/'].isPrefixOf url then "https:".toList ++ url
  else if ['/'].isPrefixOf url then "https://www.iimjobs.com".toList ++ url
  else "https://www.iimjobs.com/".toList ++ url.dropWhile (fun c => decide (c = '/'))

/- ## Rows, dedup, pipeline -/

/-- The output record: five string fields. -/
structure Row where
  title : Str
  company : Str
  location : Str
  experience : Str
  link : Str
deriving DecidableEq

/-- The dedup key `(title.lower().strip(), link.lower().strip())`. -/
def rowKey (r : Row) : Str × Str :=
  (pyStrip (pyLower r.title), pyStrip (pyLower r.link))

/-- Worker of `dedupe_jobs`, with the `seen` set as a list of keys. -/
def dedupeAux (seen : List (Str × Str)) : List Row → List Row
  | [] => []
  | r :: rs =>
    if rowKey r ∈ seen then dedupeAux seen rs
    else r :: dedupeAux (rowKey r :: seen) rs

/-- Model of `dedupe_jobs`. -/
def dedupe_jobs (rows : List Row) : List Row := dedupeAux [] rows

/-- The body of the container loop of `extract_jobs`: build the record for
one container, or skip it (`continue`) when no title is chosen or both title
and link are empty. -/
def containerRow (container : HNode) : Option Row :=
  match choose_title container with
  | none => none
  | some t =>
    let title := extract_visible_text t
    let link := (choose_link container t).getD []
    let company := (choose_company container).getD []
    let location := (choose_location container).getD []
    let experience := (choose_experience container).getD []
    if title = [] ∧ link = [] then none
    else
      some { title := title, company := company, location := location,
             experience := experience,
             link := if link = [] then [] else absolutize link }

/-- The body of the fallback anchor loop of `extract_jobs`: a record for an
anchor whose stripped href is non-empty and looks like a job link. -/
def fallbackRow (a : HNode) : Option Row :=
  let href := pyStrip (hrefOf a)
  if href = [] then none
  else
    let h := pyLower href
    if hasSub h "iimjobs.com".toList || "/j/".toList.isPrefixOf h || hasSub h "/job".toList then
      some { title := extract_visible_text a, company := [], location := [],
             experience := [], link := absolutize href }
    else none

/-- Model of `extract_jobs` from the parsed tree onward (the file read and
HTML parse are the I/O boundary): container path, or the fallback anchor scan
when no containers are found, then dedup. -/
def extract_jobs (soup : HNode) : List Row :=
  match find_job_containers soup with
  | [] => dedupe_jobs ((findAllHrefAnchors soup).filterMap fallbackRow)
  | c :: cs => dedupe_jobs ((c :: cs).filterMap containerRow)

/-- The order-preserving first-occurrence dedup, stated the way the spec words
it: keep each first occurrence, drop every later row with the same key. -/
def firstOccur : List Row → List Row
  | [] => []
  | r :: rs => r :: firstOccur (rs.filter (fun s => decide (rowKey s ≠ rowKey r)))
termination_by l => l.length
decreasing_by
  simpa using Nat.lt_succ_of_le ((List.filter_sublist rs).length_le)

/- ## Entry point model -/

/-- The observable outcome of `main`: exit code, the two streams, and whether
the extraction core ran.  Spreadsheet writing is an external collaborator and
is represented only by the summary line it provokes. -/
structure MainResult where
  exitCode : Nat
  stdoutLines : List Str
  stderrLines : List Str
  ranCore : Bool
deriving DecidableEq

/-- The stderr diagnostic of `main` for a missing input file. -/
def notFoundMsg : Str := "Input HTML not found: /workspace/Page_49_htmlr1.htm".toList

/-- The stdout notice of `main` when no rows survived. -/
def noJobsMsg : Str := "No jobs found. Exporting an empty sheet with headers.".toList

/-- The stdout summary of `main` with the row count. -/
def wroteMsg (n : Nat) : Str :=
  "Wrote ".toList ++ (toString n).toList ++ " rows to /workspace/jobs_page49.xlsx".toList

/-- Model of `main`: the input-existence boundary check, then the core on the
parsed tree, then the summary.  `soup` stands for the tree the loader would
produce when the input exists. -/
def mainModel (inputExists : Bool) (soup : HNode) : MainResult :=
  if !inputExists then
    { exitCode := 2, stdoutLines := [], stderrLines := [notFoundMsg], ranCore := false }
  else
    let jobs := extract_jobs soup
    { exitCode := 0,
      stdoutLines := (if jobs.isEmpty then [noJobsMsg] else []) ++ [wroteMsg jobs.length],
      stderrLines := [], ranCore := true }

/- ## Sample documents and rows used by concrete instantiations -/

/-- A job anchor: title element of `nodeW`. -/
def tW : HNode :=
  .elem 2 "a".toList [] [("href".toList, "/j/99".toList)]
    (.ofList [.text "Data Scientist".toList])

/-- A job container with a job-like class and an anchor. -/
def nodeW : HNode := .elem 1 "div".toList ["job-card".toList] [] (.ofList [tW])

/-- A document whose container path yields one record. -/
def docW : HNode := .elem 0 "[document]".toList [] [] (.ofList [nodeW])

/-- The record the container path produces from `docW`. -/
def rowW : Row :=
  { title := "Data Scientist".toList, company := [], location := [], experience := [],
    link := "https://www.iimjobs.com/j/99".toList }

/-- A bare job anchor outside any container. -/
def aF : HNode :=
  .elem 3 "a".toList [] [("href".toList, "/j/123".toList)]
    (.ofList [.text "Fallback Job".toList])

/-- A document with no containers, exercising the fallback scanner. -/
def docF : HNode := .elem 0 "[document]".toList [] [] (.ofList [aF])

/-- A heading of level 1 whose text is shorter than 5 characters. -/
def h1Short : HNode := .elem 11 "h1".toList [] [] (.ofList [.text "ab".toList])

/-- A later heading of level 1 whose text has length at least 5. -/
def h1Long : HNode :=
  .elem 12 "h1".toList [] [] (.ofList [.text "Senior Data Engineer".toList])

/-- An anchor with long text but no job-like href. -/
def aAbout : HNode :=
  .elem 13 "a".toList [] [("href".toList, "/about".toList)]
    (.ofList [.text "About this company".toList])

/-- A container exercising the heading cascade of the title extractor. -/
def titleCex : HNode := .elem 10 "div".toList [] [] (.ofList [h1Short, h1Long, aAbout])

/-- A container whose text has a location marker with no separator. -/
def locCex : HNode := .elem 21 "div".toList [] [] (.ofList [.text "Location Mumbai".toList])

/-- Two rows sharing the dedup key but differing in the company field. -/
def rowA : Row :=
  { title := "Brand Manager".toList, company := "Acme".toList, location := [],
    experience := [], link := "/j/7".toList }

/-- See `rowA`. -/
def rowB : Row :=
  { title := "Brand Manager".toList, company := "Globex".toList, location := [],
    experience := [], link := "/j/7".toList }

/- ## Lemmas on the deduplicator -/

/-- Every row kept by the dedup worker comes from the input list. -/
theorem dedupeAux_subset (seen : List (Str × Str)) :
    ∀ (l : List Row) (r : Row), r ∈ dedupeAux seen l → r ∈ l := by
  intro l
  induction l generalizing seen with
  | nil => intro r hr; simp [dedupeAux] at hr
  | cons a rs ih =>
    intro r hr
    rw [dedupeAux] at hr
    split at hr
    · exact List.mem_cons_of_mem _ (ih seen r hr)
    · rcases List.mem_cons.mp hr with h | h
      · exact h ▸ List.mem_cons_self a rs
      · exact List.mem_cons_of_mem _ (ih _ r h)

/-- Membership version for `dedupe_jobs`. -/
theorem mem_of_mem_dedupe_jobs {l : List Row} {r : Row} (h : r ∈ dedupe_jobs l) : r ∈ l :=
  dedupeAux_subset [] l r h

/-- The dedup worker computes the first-occurrence dedup of the rows whose
key has not been seen yet. -/
theorem dedupeAux_eq_firstOccur :
    ∀ (n : Nat) (l : List Row), l.length ≤ n → ∀ seen : List (Str × Str),
      dedupeAux seen l = firstOccur (l.filter (fun r => decide (rowKey r ∉ seen))) := by
  intro n
  induction n with
  | zero =>
    intro l hl seen
    cases l with
    | nil => simp [dedupeAux, firstOccur]
    | cons a rs => simp at hl
  | succ n ih =>
    intro l hl seen
    cases l with
    | nil => simp [dedupeAux, firstOccur]
    | cons a rs =>
      rw [dedupeAux, List.filter_cons]
      by_cases hm : rowKey a ∈ seen
      · rw [if_pos hm]
        have hd : decide (rowKey a ∉ seen) = false := by simp [hm]
        rw [hd]
        simp only [Bool.false_eq_true, if_false]
        exact ih rs (Nat.le_of_succ_le_succ hl) seen
      · rw [if_neg hm]
        have hd : decide (rowKey a ∉ seen) = true := by simp [hm]
        rw [hd]
        simp only [if_true]
        rw [firstOccur, ih rs (Nat.le_of_succ_le_succ hl) (rowKey a :: seen)]
        congr 1
        rw [List.filter_filter]
        congr 1
        apply List.filter_congr
        intro r _
        by_cases h1 : rowKey r = rowKey a <;> by_cases h2 : rowKey r ∈ seen <;>
          simp [h1, h2, List.mem_cons]

/-- `dedupe_jobs` equals the first-occurrence dedup. -/
theorem dedupe_eq_firstOccur (rows : List Row) : dedupe_jobs rows = firstOccur rows := by
  have h := dedupeAux_eq_firstOccur rows.length rows le_rfl []
  have hf : rows.filter (fun r => decide (rowKey r ∉ ([] : List (Str × Str)))) = rows :=
    List.filter_eq_self.mpr (fun r _ => by simp)
  rw [dedupe_jobs, h, hf]

/-- Filtering by a key commutes with the first-occurrence dedup. -/
theorem firstOccur_filter (k : Str × Str) :
    ∀ (n : Nat) (l : List Row), l.length ≤ n →
      (firstOccur l).filter (fun s => decide (rowKey s ≠ k)) =
        firstOccur (l.filter (fun s => decide (rowKey s ≠ k))) := by
  intro n
  induction n with
  | zero =>
    intro l hl
    cases l with
    | nil => simp [firstOccur]
    | cons a rs => simp at hl
  | succ n ih =>
    intro l hl
    cases l with
    | nil => simp [firstOccur]
    | cons a rs =>
      rw [firstOccur, List.filter_cons, List.filter_cons]
      by_cases hk : rowKey a = k
      · have hd : decide (rowKey a ≠ k) = false := by simp [hk]
        rw [hd]
        simp only [Bool.false_eq_true, if_false]
        rw [ih (rs.filter (fun s => decide (rowKey s ≠ rowKey a)))
          (Nat.le_trans ((List.filter_sublist rs).length_le) (Nat.le_of_succ_le_succ hl))]
        congr 1
        rw [List.filter_filter]
        apply List.filter_congr
        intro r _
        by_cases h1 : rowKey r = rowKey a <;> simp [h1, hk]
      · have hd : decide (rowKey a ≠ k) = true := by simp [hk]
        rw [hd]
        simp only [if_true]
        rw [firstOccur]
        congr 1
        rw [ih (rs.filter (fun s => decide (rowKey s ≠ rowKey a)))
          (Nat.le_trans ((List.filter_sublist rs).length_le) (Nat.le_of_succ_le_succ hl))]
        congr 1
        rw [List.filter_filter, List.filter_filter]
        apply List.filter_congr
        intro r _
        by_cases h1 : rowKey r = rowKey a <;> by_cases h2 : rowKey r = k <;> simp [h1, h2]

/-- The first-occurrence dedup is idempotent. -/
theorem firstOccur_idem :
    ∀ (n : Nat) (l : List Row), l.length ≤ n → firstOccur (firstOccur l) = firstOccur l := by
  intro n
  induction n with
  | zero =>
    intro l hl
    cases l with
    | nil => simp [firstOccur]
    | cons a rs => simp at hl
  | succ n ih =>
    intro l hl
    cases l with
    | nil => simp [firstOccur]
    | cons a rs =>
      rw [firstOccur, firstOccur]
      congr 1
      rw [firstOccur_filter (rowKey a) (rs.filter (fun s => decide (rowKey s ≠ rowKey a))).length
        (rs.filter (fun s => decide (rowKey s ≠ rowKey a))) le_rfl]
      have hff : (rs.filter (fun s => decide (rowKey s ≠ rowKey a))).filter
          (fun s => decide (rowKey s ≠ rowKey a)) =
          rs.filter (fun s => decide (rowKey s ≠ rowKey a)) := by
        rw [List.filter_filter]
        apply List.filter_congr
        intro r _
        by_cases h1 : rowKey r = rowKey a <;> simp [h1]
      rw [hff]
      exact ih (rs.filter (fun s => decide (rowKey s ≠ rowKey a)))
        (Nat.le_trans ((List.filter_sublist rs).length_le) (Nat.le_of_succ_le_succ hl))

/- ## Lemmas on the URL normalizer -/

/-- Bridge between the boolean test and the initial-segment relation. -/
theorem isPrefixOf_eq_true {l1 l2 : Str} : l1.isPrefixOf l2 = true ↔ l1 <+: l2 :=
  List.isPrefixOf_iff_prefix

/-- A list is an initial segment of itself followed by anything. -/
theorem prefixAppend (l1 l2 : Str) : l1 <+: l1 ++ l2 :=
  List.prefix_append l1 l2

/-- Destructure a string starting with two slashes. -/
theorem eq_two_slash_of_isPrefixOf {url : Str}
    (h : (['/', '/'] : Str).isPrefixOf url = true) : ∃ u, url = '/' :: '/' :: u := by
  match url with
  | [] => simp [List.isPrefixOf] at h
  | [c] => simp [List.isPrefixOf] at h
  | c1 :: c2 :: u =>
    simp [List.isPrefixOf] at h
    exact ⟨u, by rw [← h.1, ← h.2]⟩

/-- Destructure a string starting with a slash. -/
theorem eq_one_slash_of_isPrefixOf {url : Str}
    (h : (['/'] : Str).isPrefixOf url = true) : ∃ u, url = '/' :: u := by
  match url with
  | [] => simp [List.isPrefixOf] at h
  | c :: u =>
    simp [List.isPrefixOf] at h
    exact ⟨u, by rw [← h]⟩

/-- An already-absolute URL is returned unchanged. -/
theorem absolutize_of_absolute {url : Str}
    (h : "http://".toList.isPrefixOf url = true ∨ "https://".toList.isPrefixOf url = true) :
    absolutize url = url := by
  cases url with
  | nil => rfl
  | cons c u =>
    have hb : ("http://".toList.isPrefixOf (c :: u) ||
        "https://".toList.isPrefixOf (c :: u)) = true := by
      simp only [Bool.or_eq_true]
      exact h
    rw [absolutize, if_neg (by simp), if_pos hb]

/-- Applying the normalizer twice equals applying it once. -/
theorem absolutize_twice (url : Str) : absolutize (absolutize url) = absolutize url := by
  by_cases h0 : url.isEmpty = true
  · have : url = [] := by cases url <;> simp_all
    subst this; rfl
  · have h0f : ¬(url.isEmpty = true) := h0
    by_cases h1 : ("http://".toList.isPrefixOf url || "https://".toList.isPrefixOf url) = true
    · have e : absolutize url = url := by rw [absolutize, if_neg h0f, if_pos h1]
      rw [e, e]
    · by_cases h2 : (['/', '/'] : Str).isPrefixOf url = true
      · have e : absolutize url = "https:".toList ++ url := by
          rw [absolutize, if_neg h0f, if_neg h1, if_pos h2]
        obtain ⟨u, rfl⟩ := eq_two_slash_of_isPrefixOf h2
        rw [e]
        exact absolutize_of_absolute (Or.inr (isPrefixOf_eq_true.mpr ⟨u, rfl⟩))
      · by_cases h3 : (['/'] : Str).isPrefixOf url = true
        · have e : absolutize url = "https://www.iimjobs.com".toList ++ url := by
            rw [absolutize, if_neg h0f, if_neg h1, if_neg h2, if_pos h3]
          obtain ⟨u, rfl⟩ := eq_one_slash_of_isPrefixOf h3
          rw [e]
          exact absolutize_of_absolute
            (Or.inr (isPrefixOf_eq_true.mpr
              ⟨"www.iimjobs.com".toList ++ '/' :: u, rfl⟩))
        · have e : absolutize url =
              "https://www.iimjobs.com/".toList ++ url.dropWhile (fun c => decide (c = '/')) := by
            rw [absolutize, if_neg h0f, if_neg h1, if_neg h2, if_neg h3]
          rw [e]
          exact absolutize_of_absolute
            (Or.inr (isPrefixOf_eq_true.mpr
              ⟨"www.iimjobs.com/".toList ++ url.dropWhile (fun c => decide (c = '/')), rfl⟩))

/-- A non-empty URL stays non-empty under the normalizer. -/
theorem absolutize_ne_nil {url : Str} (h : url ≠ []) : absolutize url ≠ [] := by
  cases url with
  | nil => exact absurd rfl h
  | cons c u =>
    rw [absolutize]
    split
    · exact h
    · split
      · exact h
      · split
        · simp
        · split
          · simp
          · simp

/- ## Lemmas on the two row builders -/

/-- What a produced fallback row looks like. -/
theorem fallbackRow_eq_some {a : HNode} {r : Row} (h : fallbackRow a = some r) :
    pyStrip (hrefOf a) ≠ [] ∧ r.title = extract_visible_text a ∧
      r.link = absolutize (pyStrip (hrefOf a)) := by
  simp only [fallbackRow] at h
  split at h
  · exact absurd h (by simp)
  · rename_i hne
    split at h
    · have hr := Option.some.inj h
      subst hr
      exact ⟨hne, rfl, rfl⟩
    · exact absurd h (by simp)

/-- What a produced container row looks like. -/
theorem containerRow_eq_some {container : HNode} {r : Row}
    (h : containerRow container = some r) :
    ∃ t, choose_title container = some t ∧ r.title = extract_visible_text t ∧
      (r.title ≠ [] ∨ ∃ url, url ≠ [] ∧ r.link = absolutize url) := by
  simp only [containerRow] at h
  cases hct : choose_title container with
  | none => rw [hct] at h; exact absurd h (by simp)
  | some t =>
    rw [hct] at h
    simp only at h
    refine ⟨t, rfl, ?_⟩
    split at h
    · exact absurd h (by simp)
    · rename_i hg
      have hr := Option.some.inj h
      subst hr
      refine ⟨rfl, ?_⟩
      rcases not_and_or.mp hg with h1 | h2
      · exact Or.inl h1
      · refine Or.inr ⟨(choose_link container t).getD [], h2, ?_⟩
        simp only [if_neg h2]

/- ## Claim theorems: invariants and dedup -/

/-- Claim C1: for every input document, every JobRecord produced by
`extract_jobs` (container path or fallback path, after deduplication) has a
non-empty Title or a non-empty Link; no record has both empty. -/
theorem extract_jobs_title_or_link (soup : HNode) (r : Row)
    (hr : r ∈ extract_jobs soup) : r.title ≠ [] ∨ r.link ≠ [] := by
  rw [extract_jobs] at hr
  split at hr
  · obtain ⟨a, _, hfa⟩ := List.mem_filterMap.mp (mem_of_mem_dedupe_jobs hr)
    obtain ⟨hne, _, hlink⟩ := fallbackRow_eq_some hfa
    exact Or.inr (hlink ▸ absolutize_ne_nil hne)
  · obtain ⟨node, _, hcr⟩ := List.mem_filterMap.mp (mem_of_mem_dedupe_jobs hr)
    obtain ⟨t, _, _, hdisj⟩ := containerRow_eq_some hcr
    rcases hdisj with h1 | ⟨url, hu, hlink⟩
    · exact Or.inl h1
    · exact Or.inr (hlink ▸ absolutize_ne_nil hu)

/-- Concrete instantiation of claim C1 on `docW`. -/
theorem extract_jobs_title_or_link_witness : rowW.title ≠ [] ∨ rowW.link ≠ [] :=
  extract_jobs_title_or_link docW rowW (by decide)

/-- Claim C4: the deduplicator keeps, in original order, the first occurrence
of each (lowercased-trimmed Title, lowercased-trimmed Link) key and drops the
later ones; in particular two rows agreeing on the key but differing in other
fields collapse to the first. -/
theorem dedupe_jobs_first_occurrence :
    (∀ rows : List Row, dedupe_jobs rows = firstOccur rows) ∧
    (∀ r1 r2 : Row, rowKey r1 = rowKey r2 → dedupe_jobs [r1, r2] = [r1]) := by
  refine ⟨dedupe_eq_firstOccur, ?_⟩
  intro r1 r2 hk
  rw [dedupe_jobs, dedupeAux, if_neg (List.not_mem_nil _), dedupeAux,
    if_pos (by rw [hk]; exact List.mem_cons_self _ _), dedupeAux]

/-- Concrete instantiation of claim C4: equal keys, different companies. -/
theorem dedupe_jobs_first_occurrence_witness : dedupe_jobs [rowA, rowB] = [rowA] :=
  dedupe_jobs_first_occurrence.2 rowA rowB (by decide)

/-- Claim C5: the deduplicator is idempotent. -/
theorem dedupe_jobs_idempotent (rows : List Row) :
    dedupe_jobs (dedupe_jobs rows) = dedupe_jobs rows := by
  rw [dedupe_eq_firstOccur, dedupe_eq_firstOccur,
    firstOccur_idem rows.length rows le_rfl]

/-- Claim C6: the URL normalizer returns URLs that already start with
http:// or https:// unchanged, and normalizing twice equals normalizing
once. -/
theorem absolutize_idempotent :
    (∀ url : Str,
      "http://".toList.isPrefixOf url = true ∨ "https://".toList.isPrefixOf url = true →
      absolutize url = url) ∧
    (∀ url : Str, absolutize (absolutize url) = absolutize url) :=
  ⟨fun _ h => absolutize_of_absolute h, absolutize_twice⟩

/-- Concrete instantiation of claim C6. -/
theorem absolutize_idempotent_witness :
    absolutize "https://www.iimjobs.com/j/1".toList = "https://www.iimjobs.com/j/1".toList :=
  absolutize_idempotent.1 _ (Or.inr (by decide))

/- ## Lemmas on the title cascade -/

/-- A successful `firstSome` comes from some list element. -/
theorem firstSome_eq_some_iff {α β : Type} {f : α → Option β} {b : β} :
    ∀ {l : List α}, firstSome f l = some b → ∃ a ∈ l, f a = some b := by
  intro l
  induction l with
  | nil => intro h; simp [firstSome] at h
  | cons x xs ih =>
    intro h
    rw [firstSome] at h
    cases hx : f x with
    | some c =>
      rw [hx] at h
      have h2 : some c = some b := h
      exact ⟨x, List.mem_cons_self _ _, hx.trans h2⟩
    | none =>
      rw [hx] at h
      have h2 : firstSome f xs = some b := h
      obtain ⟨a, ha, hfa⟩ := ih h2
      exact ⟨a, List.mem_cons_of_mem _ ha, hfa⟩

/-- `firstSome` over pointwise failures fails. -/
theorem firstSome_eq_none_of {α β : Type} {f : α → Option β} :
    ∀ {l : List α}, (∀ a ∈ l, f a = none) → firstSome f l = none := by
  intro l
  induction l with
  | nil => intro _; rfl
  | cons x xs ih =>
    intro h
    rw [firstSome, h x (List.mem_cons_self _ _)]
    exact ih (fun a ha => h a (List.mem_cons_of_mem _ ha))

/-- Whatever `choose_title` returns has visible text of length at least 5. -/
theorem choose_title_length {node t : HNode} (h : choose_title node = some t) :
    5 ≤ (extract_visible_text t).length := by
  rw [choose_title] at h
  cases h1 : titleAnchorStep node with
  | some a =>
    rw [h1] at h
    have h2 : some a = some t := h
    cases Option.some.inj h2
    have hp := List.find?_some h1
    simp only [Bool.and_eq_true, decide_eq_true_eq] at hp
    exact hp.2
  | none =>
    rw [h1] at h
    have hrest : (match headingStep node with
      | some hh => some hh
      | none => titleFallback node) = some t := h
    cases h2 : headingStep node with
    | some hh =>
      rw [h2] at hrest
      have h3 : some hh = some t := hrest
      obtain ⟨lv, _, hf⟩ := firstSome_eq_some_iff h2
      cases h4 : findFirst lv node with
      | none => rw [h4] at hf; exact absurd hf (by simp)
      | some hh2 =>
        rw [h4] at hf
        have h5 : (if 5 ≤ (extract_visible_text hh2).length then some hh2 else none)
            = some hh := hf
        split at h5
        · rename_i hlen
          have e1 : hh2 = hh := Option.some.inj h5
          have e2 : hh = t := Option.some.inj h3
          exact e2 ▸ e1 ▸ hlen
        · exact absurd h5 (by simp)
    | none =>
      rw [h2] at hrest
      have h6 : titleFallback node = some t := hrest
      rw [titleFallback] at h6
      have hp := List.find?_some h6
      simpa using hp

/-- A chosen title always yields a record: the discard branch is dead on the
container path. -/
theorem containerRow_isSome_of_title {node t : HNode}
    (h : choose_title node = some t) : (containerRow node).isSome = true := by
  have hlen := choose_title_length h
  have hne : extract_visible_text t ≠ [] := by
    intro hc; rw [hc] at hlen; simp at hlen
  simp only [containerRow, h]
  rw [if_neg (fun hand => hne hand.1)]
  rfl

/- ## Claim theorems: title length, entry point, fallback scan -/

/-- Claim C10: any title element returned by the cascade has visible text of
length at least 5; hence every container-path record has a Title of length at
least 5, and the discard branch for doubly-empty records is unreachable on
the container path. -/
theorem container_title_min_length :
    (∀ node t : HNode, choose_title node = some t → 5 ≤ (extract_visible_text t).length) ∧
    (∀ node t : HNode, choose_title node = some t → (containerRow node).isSome = true) ∧
    (∀ (soup : HNode) (r : Row), find_job_containers soup ≠ [] → r ∈ extract_jobs soup →
      5 ≤ r.title.length) := by
  refine ⟨fun _ _ h => choose_title_length h, fun _ _ h => containerRow_isSome_of_title h, ?_⟩
  intro soup r hne hr
  rw [extract_jobs] at hr
  split at hr
  · rename_i heq; exact absurd heq hne
  · obtain ⟨node, _, hcr⟩ := List.mem_filterMap.mp (mem_of_mem_dedupe_jobs hr)
    obtain ⟨t, hct, htitle, _⟩ := containerRow_eq_some hcr
    rw [htitle]
    exact choose_title_length hct

/-- Concrete instantiation of claim C10 on `docW`. -/
theorem container_title_min_length_witness :
    5 ≤ (extract_visible_text tW).length ∧ (containerRow nodeW).isSome = true ∧
      5 ≤ rowW.title.length :=
  ⟨container_title_min_length.1 nodeW tW rfl,
   container_title_min_length.2.1 nodeW tW rfl,
   container_title_min_length.2.2 docW rowW
     (by rw [show find_job_containers docW = [nodeW] from rfl]; simp)
     (by decide)⟩

/-- Claim C9: a missing input gives exit code 2 and a diagnostic on the error
stream without running the extraction core; an existing input gives exit code
0 and the row-count summary on standard output, also when zero records
survive. -/
theorem mainModel_exit_behavior :
    (∀ soup : HNode, mainModel false soup =
      { exitCode := 2, stdoutLines := [], stderrLines := [notFoundMsg], ranCore := false }) ∧
    (∀ soup : HNode, (mainModel true soup).exitCode = 0 ∧
      (mainModel true soup).stderrLines = [] ∧ (mainModel true soup).ranCore = true ∧
      wroteMsg (extract_jobs soup).length ∈ (mainModel true soup).stdoutLines) := by
  constructor
  · intro soup; rfl
  · intro soup
    refine ⟨rfl, rfl, rfl, ?_⟩
    show wroteMsg (extract_jobs soup).length ∈
      (if (extract_jobs soup).isEmpty then [noJobsMsg] else []) ++
        [wroteMsg (extract_jobs soup).length]
    exact List.mem_append_right _ (List.mem_singleton_self _)

/-- Claim C7: with zero containers the pipeline scans every href anchor in
document order; each anchor with a non-empty stripped href whose lowered form
contains the site domain, starts with /j/, or contains /job yields a record
with the anchor text as Title, empty middle fields, and the absolutized href
as Link; href /j/123 yields the Link https://www.iimjobs.com/j/123. -/
theorem fallback_scan_behavior (soup : HNode)
    (hempty : find_job_containers soup = []) :
    extract_jobs soup = dedupe_jobs ((findAllHrefAnchors soup).filterMap fallbackRow) ∧
    (∀ a ∈ findAllHrefAnchors soup,
      pyStrip (hrefOf a) ≠ [] →
      (hasSub (pyLower (pyStrip (hrefOf a))) "iimjobs.com".toList = true ∨
        "/j/".toList.isPrefixOf (pyLower (pyStrip (hrefOf a))) = true ∨
        hasSub (pyLower (pyStrip (hrefOf a))) "/job".toList = true) →
      fallbackRow a = some { title := extract_visible_text a, company := [], location := [],
                             experience := [], link := absolutize (pyStrip (hrefOf a)) }) ∧
    (∀ a ∈ findAllHrefAnchors soup, hrefOf a = "/j/123".toList →
      fallbackRow a = some { title := extract_visible_text a, company := [], location := [],
                             experience := [],
                             link := "https://www.iimjobs.com/j/123".toList }) := by
  have hpart2 : ∀ a : HNode,
      pyStrip (hrefOf a) ≠ [] →
      (hasSub (pyLower (pyStrip (hrefOf a))) "iimjobs.com".toList = true ∨
        "/j/".toList.isPrefixOf (pyLower (pyStrip (hrefOf a))) = true ∨
        hasSub (pyLower (pyStrip (hrefOf a))) "/job".toList = true) →
      fallbackRow a = some { title := extract_visible_text a, company := [], location := [],
                             experience := [], link := absolutize (pyStrip (hrefOf a)) } := by
    intro a hne hcond
    simp only [fallbackRow]
    rw [if_neg hne, if_pos (by simp only [Bool.or_eq_true]; exact or_assoc.mpr hcond)]
  refine ⟨?_, fun a _ => hpart2 a, ?_⟩
  · rw [extract_jobs, hempty]
  · intro a _ h
    have h2 := hpart2 a (by rw [h]; decide)
      (Or.inr (Or.inl (by rw [h]; decide)))
    rw [h] at h2
    rw [h2, show absolutize (pyStrip ("/j/123".toList)) = "https://www.iimjobs.com/j/123".toList
      from by decide]

/-- Concrete instantiation of claim C7 on `docF`. -/
theorem fallback_scan_behavior_witness :
    extract_jobs docF = dedupe_jobs ((findAllHrefAnchors docF).filterMap fallbackRow) :=
  (fallback_scan_behavior docF rfl).1

/- ## Lemmas on the location search -/

/-- The rest returned by a case-insensitive literal match is a suffix. -/
theorem stripCI_suffix : ∀ {kw s rest : Str}, stripCI kw s = some rest → rest <:+ s := by
  intro kw
  induction kw with
  | nil =>
    intro s rest h
    simp only [stripCI, Option.some.injEq] at h
    rw [← h]
  | cons k ks ih =>
    intro s rest h
    cases s with
    | nil => exact absurd h (by simp [stripCI])
    | cons c cs =>
      simp only [stripCI] at h
      split at h
      · exact (ih h).trans (List.suffix_cons c cs)
      · exact absurd h (by simp)

/-- Without any separator character available, one location attempt fails. -/
theorem locTryAt_eq_none {s : Str} (hs : ∀ c ∈ s, c ∉ sepChars) : locTryAt s = none := by
  have hafter : ∀ rest : Str, rest <:+ s → locAfterKw rest = none := by
    intro rest hrest
    cases hd : rest.dropWhile isSpaceChar with
    | nil => simp only [locAfterKw, hd]
    | cons c r2 =>
      have hc : c ∈ s := by
        have h1 : c ∈ rest.dropWhile isSpaceChar := by
          rw [hd]; exact List.mem_cons_self _ _
        exact hrest.sublist.subset ((List.dropWhile_sublist _).subset h1)
      simp only [locAfterKw, hd]
      rw [if_neg (hs c hc)]
  cases h1 : stripCI "location".toList s with
  | some rest => simp only [locTryAt, h1]; exact hafter rest (stripCI_suffix h1)
  | none =>
    cases h2 : stripCI "city".toList s with
    | some rest => simp only [locTryAt, h1, h2]; exact hafter rest (stripCI_suffix h2)
    | none => simp only [locTryAt, h1, h2]

/-- Without any separator character in the text, the location search fails. -/
theorem locSearchAux_eq_none :
    ∀ {s : Str}, (∀ c ∈ s, c ∉ sepChars) → ∀ prev, locSearchAux prev s = none := by
  intro s
  induction s with
  | nil => intro _ prev; rfl
  | cons c rest ih =>
    intro hs prev
    simp only [locSearchAux]
    have h1 : locTryAt (c :: rest) = none := locTryAt_eq_none hs
    have h2 : (if (match prev with | none => true | some p => !isWordChar p) = true
        then locTryAt (c :: rest) else none) = none := by
      split
      · exact h1
      · rfl
    rw [h2]
    exact ih (fun x hx => hs x (List.mem_cons_of_mem _ hx)) (some c)

/- ## Claim theorems: the location extractor -/

/-- Claim C2 (amended): for a container whose descendants carry no
location-like class token, the extractor searches the full normalized text
with the pattern whose ":", "-" or "|" separator after the marker word is
REQUIRED, returning the stripped capture; with no separator character in the
text there is never a match, so a marker word followed directly by the
location yields nothing. -/
theorem choose_location_requires_separator (node : HNode)
    (hc : ∀ el ∈ descElems node, has_class_like el locSubs = false) :
    choose_location node =
      (match locSearchAux none (extract_visible_text node) with
       | some g => some (pyStrip g)
       | none => none) ∧
    (∀ s : Str, (∀ c ∈ s, c ∉ sepChars) → locSearchAux none s = none) := by
  constructor
  · have hfind : (descElems node).find? (fun el =>
        has_class_like el locSubs && decide (2 ≤ (extract_visible_text el).length)) = none :=
      List.find?_eq_none.mpr (fun el hel => by simp [hc el hel])
    rw [choose_location, hfind]
  · intro s hs
    exact locSearchAux_eq_none hs none

/-- Claim C2 counterexample: the container text has the marker word directly
followed by the location; the spec-side optional-separator search captures
Mumbai, but the extractor returns nothing. -/
theorem choose_location_no_separator_counterexample :
    ((descElems locCex).all (fun el => !has_class_like el locSubs)) = true ∧
    extract_visible_text locCex = "Location Mumbai".toList ∧
    locSearchSpecAux none (extract_visible_text locCex) = some ("Mumbai".toList) ∧
    choose_location locCex = none := by decide

/-- Concrete instantiation of claim C2 (amended) on `locCex`. -/
theorem choose_location_requires_separator_witness :
    choose_location locCex =
      (match locSearchAux none (extract_visible_text locCex) with
       | some g => some (pyStrip g)
       | none => none) :=
  (choose_location_requires_separator locCex (by decide)).1

/- ## Claim theorems: the title heading cascade -/

/-- What a successful heading step means: the FIRST heading of some level,
with text of length at least 5. -/
theorem headingStep_eq_some {node h : HNode} (hh : headingStep node = some h) :
    5 ≤ (extract_visible_text h).length ∧ ∃ lv ∈ titleLevels, findFirst lv node = some h := by
  obtain ⟨lv, hlv, hf⟩ := firstSome_eq_some_iff hh
  cases h4 : findFirst lv node with
  | none => rw [h4] at hf; exact absurd hf (by simp)
  | some hh2 =>
    rw [h4] at hf
    have h5 : (if 5 ≤ (extract_visible_text hh2).length then some hh2 else none)
        = some h := hf
    split at h5
    · rename_i hlen
      have e1 : hh2 = h := Option.some.inj h5
      exact ⟨e1 ▸ hlen, lv, hlv, e1 ▸ h4⟩
    · exact absurd h5 (by simp)

/-- Claim C3 (amended): when the anchor step yields nothing, the cascade
inspects only the FIRST heading of each level 1 to 4 in order and returns it
when its text has length at least 5; when the first heading of every level is
short or absent the cascade falls through to the anchor fallback, and a later
heading of the same level is never considered. -/
theorem choose_title_first_heading_only (node : HNode)
    (hanch : (titleAnchorStep node).isNone = true) :
    (∀ h : HNode, headingStep node = some h →
      choose_title node = some h ∧ 5 ≤ (extract_visible_text h).length ∧
      ∃ lv ∈ titleLevels, findFirst lv node = some h) ∧
    ((titleLevels.all (fun lv =>
        match findFirst lv node with
        | some hh => decide ((extract_visible_text hh).length < 5)
        | none => true)) = true →
      choose_title node = titleFallback node) := by
  have hanchN : titleAnchorStep node = none := Option.isNone_iff_eq_none.mp hanch
  constructor
  · intro h hh
    obtain ⟨hlen, hex⟩ := headingStep_eq_some hh
    exact ⟨by rw [choose_title, hanchN, hh], hlen, hex⟩
  · intro hall
    have hnone : headingStep node = none := by
      apply firstSome_eq_none_of
      intro lv hlv
      have ht := List.all_eq_true.mp hall lv hlv
      cases h4 : findFirst lv node with
      | none => simp [h4]
      | some hh2 =>
        rw [h4] at ht
        have h6 : decide ((extract_visible_text hh2).length < 5) = true := ht
        have hlt := of_decide_eq_true h6
        simp only [h4]
        rw [if_neg (Nat.not_le.mpr hlt)]
    rw [choose_title, hanchN, hnone]

/-- Claim C3 counterexample: the anchor step fails, the first level-1 heading
is short, a later level-1 heading is long, yet the extractor returns the
fallback anchor (node 13) instead of the later heading (node 12). -/
theorem choose_title_later_heading_counterexample :
    (titleAnchorStep titleCex).isNone = true ∧
    (findAll "h1".toList titleCex).map nidOf = [11, 12] ∧
    (extract_visible_text h1Short).length < 5 ∧
    5 ≤ (extract_visible_text h1Long).length ∧
    tagOf aAbout = "a".toList ∧
    (choose_title titleCex).map nidOf = some 13 := by decide

/-- Concrete instantiation of claim C3 (amended) on `titleCex`. -/
theorem choose_title_first_heading_only_witness :
    choose_title titleCex = titleFallback titleCex :=
  (choose_title_first_heading_only titleCex (by decide)).2 (by decide)

/- ## Lemmas on substring search and class tokens -/

/-- A space-free needle that starts a string continues into the part before
an inserted space. -/
theorem isPrefixOf_no_space :
    ∀ (a : Str) {needle b : Str}, ' ' ∉ needle →
      needle.isPrefixOf (a ++ ' ' :: b) = true → needle.isPrefixOf a = true := by
  intro a
  induction a with
  | nil =>
    intro needle b hsp h
    cases needle with
    | nil => rfl
    | cons n ns =>
      rw [List.nil_append] at h
      have h1 : ((n == ' ') && ns.isPrefixOf b) = true := h
      simp only [Bool.and_eq_true] at h1
      have hn : n = ' ' := by simpa using h1.1
      exact absurd (by rw [← hn]; exact List.mem_cons_self n ns) hsp
  | cons x xs ih =>
    intro needle b hsp h
    cases needle with
    | nil => rfl
    | cons n ns =>
      rw [List.cons_append] at h
      have h1 : ((n == x) && ns.isPrefixOf (xs ++ ' ' :: b)) = true := h
      simp only [Bool.and_eq_true] at h1
      obtain ⟨h2, h3⟩ := h1
      have h4 : ns.isPrefixOf xs = true :=
        ih (fun hx => hsp (List.mem_cons_of_mem _ hx)) h3
      show ((n == x) && ns.isPrefixOf xs) = true
      rw [h2, h4]
      rfl

/-- Searching for a non-empty space-free needle across a joining space
decomposes into the two sides. -/
theorem hasSub_append_space {needle : Str} (hne : needle ≠ []) (hsp : ' ' ∉ needle) :
    ∀ (a b : Str), hasSub (a ++ ' ' :: b) needle = (hasSub a needle || hasSub b needle) := by
  intro a
  induction a with
  | nil =>
    intro b
    rw [List.nil_append]
    show (needle.isPrefixOf (' ' :: b) || hasSub b needle) =
      (hasSub [] needle || hasSub b needle)
    have h1 : needle.isPrefixOf (' ' :: b) = false := by
      cases needle with
      | nil => exact absurd rfl hne
      | cons n ns =>
        have hn : (n == ' ') = false := by
          have : n ≠ ' ' := fun hh => hsp (by rw [← hh]; exact List.mem_cons_self n ns)
          simpa using this
        show ((n == ' ') && ns.isPrefixOf b) = false
        rw [hn, Bool.false_and]
    have h2 : hasSub [] needle = false := by
      show decide (needle = []) = false
      simpa using hne
    rw [h1, h2]
  | cons x xs ih =>
    intro b
    rw [List.cons_append]
    show (needle.isPrefixOf (x :: (xs ++ ' ' :: b)) || hasSub (xs ++ ' ' :: b) needle) =
      ((needle.isPrefixOf (x :: xs) || hasSub xs needle) || hasSub b needle)
    rw [ih b]
    have hx : needle.isPrefixOf (x :: (xs ++ ' ' :: b)) = needle.isPrefixOf (x :: xs) := by
      rcases hp : needle.isPrefixOf (x :: xs) with _ | _
      · rcases hq : needle.isPrefixOf (x :: (xs ++ ' ' :: b)) with _ | _
        · rfl
        · have h5 : needle.isPrefixOf ((x :: xs) ++ ' ' :: b) = true := hq
          have h6 := isPrefixOf_no_space (x :: xs) hsp h5
          rw [hp] at h6
          exact Bool.noConfusion h6
      · have h4 : needle <+: x :: xs := isPrefixOf_eq_true.mp hp
        have h5 : needle <+: (x :: xs) ++ ' ' :: b :=
          h4.trans (prefixAppend (x :: xs) (' ' :: b))
        have h6 : needle.isPrefixOf (x :: (xs ++ ' ' :: b)) = true :=
          isPrefixOf_eq_true.mpr h5
        rw [h6]
    rw [hx, Bool.or_assoc]

/-- A non-empty space-free needle occurs in the space-joined tokens exactly
when it occurs in one token. -/
theorem hasSub_joinSpace {needle : Str} (hne : needle ≠ []) (hsp : ' ' ∉ needle) :
    ∀ toks : List Str, hasSub (joinSpace toks) needle = true ↔
      ∃ t ∈ toks, hasSub t needle = true := by
  intro toks
  induction toks with
  | nil =>
    show decide (needle = []) = true ↔ _
    simp [hne]
  | cons s rest ih =>
    cases rest with
    | nil =>
      show hasSub s needle = true ↔ _
      simp
    | cons s2 r2 =>
      rw [show joinSpace (s :: s2 :: r2) = s ++ ' ' :: joinSpace (s2 :: r2) from rfl]
      rw [hasSub_append_space hne hsp]
      simp only [Bool.or_eq_true, ih]
      constructor
      · rintro (h | ⟨t, ht, hh⟩)
        · exact ⟨s, List.mem_cons_self _ _, h⟩
        · exact ⟨t, List.mem_cons_of_mem _ ht, hh⟩
      · rintro ⟨t, ht, hh⟩
        rcases List.mem_cons.mp ht with rfl | ht2
        · exact Or.inl hh
        · exact Or.inr ⟨t, ht2, hh⟩

/-- Lowercasing commutes with the space join. -/
theorem pyLower_joinSpace :
    ∀ toks : List Str, pyLower (joinSpace toks) = joinSpace (toks.map pyLower) := by
  intro toks
  induction toks with
  | nil => rfl
  | cons s rest ih =>
    cases rest with
    | nil => rfl
    | cons s2 r2 =>
      show pyLower (s ++ ' ' :: joinSpace (s2 :: r2)) =
        pyLower s ++ ' ' :: joinSpace ((s2 :: r2).map pyLower)
      rw [← ih]
      simp [pyLower, show Char.toLower ' ' = ' ' from rfl]

/-- The joined-and-lowered class test of the source is the per-token test of
the spec, for non-empty space-free substrings. -/
theorem has_class_like_iff_token {node : HNode} {subs : List Str}
    (hsubs : ∀ sub ∈ subs, sub ≠ [] ∧ ' ' ∉ sub) :
    has_class_like node subs = true ↔
      ∃ cls ∈ classesOf node, ∃ sub ∈ subs, hasSub (pyLower cls) sub = true := by
  simp only [has_class_like, List.any_eq_true]
  constructor
  · rintro ⟨sub, hsub, hh⟩
    rw [pyLower_joinSpace] at hh
    obtain ⟨t, ht, hth⟩ := (hasSub_joinSpace (hsubs sub hsub).1 (hsubs sub hsub).2 _).mp hh
    obtain ⟨cls, hcls, rfl⟩ := List.mem_map.mp ht
    exact ⟨cls, hcls, sub, hsub, hth⟩
  · rintro ⟨cls, hcls, sub, hsub, hh⟩
    refine ⟨sub, hsub, ?_⟩
    rw [pyLower_joinSpace]
    exact (hasSub_joinSpace (hsubs sub hsub).1 (hsubs sub hsub).2 _).mpr
      ⟨pyLower cls, List.mem_map_of_mem _ hcls, hh⟩

/- ## Lemmas on the identity dedup of the locator -/

/-- With pairwise distinct identities and a disjoint seen set, the identity
dedup is the identity function. -/
theorem dedupByIdAux_eq_self :
    ∀ (l : List HNode) (seen : List Nat), (l.map nidOf).Nodup →
      (∀ n ∈ l, nidOf n ∉ seen) → dedupByIdAux seen l = l := by
  intro l
  induction l with
  | nil => intro seen _ _; rfl
  | cons a rest ih =>
    intro seen hnd hdis
    rw [dedupByIdAux, if_neg (hdis a (List.mem_cons_self _ _))]
    congr 1
    have hnd2 : (∀ x ∈ rest, ¬nidOf x = nidOf a) ∧ (rest.map nidOf).Nodup := by
      simpa using hnd
    apply ih
    · exact hnd2.2
    · intro n hn
      simp only [List.mem_cons]
      push_neg
      exact ⟨hnd2.1 n hn, hdis n (List.mem_cons_of_mem _ hn)⟩

/-- The per-tag filter scans over distinct tags produce nodes with pairwise
distinct identities, given a well-formed base list. -/
theorem nodup_nid_flatMap_filter (base : List HNode) (hb : (base.map nidOf).Nodup)
    (q : HNode → Bool) :
    ∀ tags : List Str, tags.Nodup →
      ((tags.flatMap (fun t =>
        base.filter (fun n => decide (tagOf n = t) && q n))).map nidOf).Nodup := by
  intro tags
  induction tags with
  | nil => intro _; simp
  | cons t ts ih =>
    intro hnd
    rw [List.flatMap_cons, List.map_append]
    refine List.Nodup.append ?_ (ih (List.nodup_cons.mp hnd).2) ?_
    · exact List.Nodup.sublist (List.Sublist.map nidOf (List.filter_sublist base)) hb
    · intro x hx1 hx2
      obtain ⟨a, ha, rfl⟩ := List.mem_map.mp hx1
      obtain ⟨b, hbm, hba⟩ := List.mem_map.mp hx2
      obtain ⟨t2, ht2, hbf⟩ := List.mem_flatMap.mp hbm
      have haB : a ∈ base := (List.mem_filter.mp ha).1
      have hbB : b ∈ base := (List.mem_filter.mp hbf).1
      have hab : b = a := List.inj_on_of_nodup_map hb hbB haB hba
      have h1 := (List.mem_filter.mp ha).2
      have h2 := (List.mem_filter.mp hbf).2
      rw [hab] at h2
      simp only [Bool.and_eq_true, decide_eq_true_eq] at h1 h2
      have hteq : t = t2 := by rw [← h1.1, ← h2.1]
      exact (List.nodup_cons.mp hnd).1 (by rw [hteq]; exact ht2)

/-- The identities produced by the four-tag candidate scan are pairwise
distinct in a well-formed tree. -/
theorem containers_scan_nodup (soup : HNode)
    (hwf : ((descElems soup).map nidOf).Nodup) :
    ((containerTags.flatMap (fun t =>
      (findAll t soup).filter (fun node =>
        has_class_like node jobSubs && hasAnchorDesc node))).map nidOf).Nodup := by
  have hshape : ∀ t : Str,
      (findAll t soup).filter (fun node => has_class_like node jobSubs && hasAnchorDesc node) =
        (descElems soup).filter (fun n =>
          decide (tagOf n = t) && (has_class_like n jobSubs && hasAnchorDesc n)) := by
    intro t
    rw [findAll, List.filter_filter]
    apply List.filter_congr
    intro n _
    rw [Bool.and_comm]
  simp only [hshape]
  exact nodup_nid_flatMap_filter (descElems soup) hwf
    (fun n => has_class_like n jobSubs && hasAnchorDesc n) containerTags (by decide)

/-- In a well-formed tree the identity dedup of the locator is a no-op. -/
theorem find_job_containers_eq (soup : HNode)
    (hwf : ((descElems soup).map nidOf).Nodup) :
    find_job_containers soup = containerTags.flatMap (fun t =>
      (findAll t soup).filter (fun node =>
        has_class_like node jobSubs && hasAnchorDesc node)) := by
  rw [find_job_containers, dedupById]
  apply dedupByIdAux_eq_self
  · exact containers_scan_nodup soup hwf
  · intro n _
    exact List.not_mem_nil _

/- ## Claim theorem: the container locator -/

/-- Claim C8: the locator returns exactly the article, li, div or section
elements having a class token containing a job substring and at least one
anchor descendant, deduplicated by node identity (each identity appears
once), in first-seen scan order. -/
theorem find_job_containers_spec (soup : HNode)
    (hwf : ((descElems soup).map nidOf).Nodup) :
    find_job_containers soup = containerTags.flatMap (fun t =>
      (findAll t soup).filter (fun node =>
        has_class_like node jobSubs && hasAnchorDesc node)) ∧
    (∀ n : HNode, n ∈ find_job_containers soup ↔
      (n ∈ descElems soup ∧ tagOf n ∈ containerTags ∧
        (∃ cls ∈ classesOf n, ∃ sub ∈ jobSubs, hasSub (pyLower cls) sub = true) ∧
        hasAnchorDesc n = true)) ∧
    ((find_job_containers soup).map nidOf).Nodup := by
  have heq := find_job_containers_eq soup hwf
  refine ⟨heq, ?_, ?_⟩
  · intro n
    rw [heq, List.mem_flatMap]
    constructor
    · rintro ⟨t, ht, hn⟩
      obtain ⟨hn2, hq⟩ := List.mem_filter.mp hn
      obtain ⟨hn3, htag⟩ := List.mem_filter.mp (by rw [findAll] at hn2; exact hn2)
      simp only [decide_eq_true_eq] at htag
      simp only [Bool.and_eq_true] at hq
      obtain ⟨hcl, hanch⟩ := hq
      refine ⟨hn3, by rw [htag]; exact ht, ?_, hanch⟩
      exact (has_class_like_iff_token (by decide)).mp hcl
    · rintro ⟨hmem, htag, htok, hanch⟩
      refine ⟨tagOf n, htag, ?_⟩
      rw [findAll]
      refine List.mem_filter.mpr ⟨List.mem_filter.mpr ⟨hmem, by simp⟩, ?_⟩
      rw [Bool.and_eq_true]
      exact ⟨(has_class_like_iff_token (by decide)).mpr htok, hanch⟩
  · rw [heq]
    exact containers_scan_nodup soup hwf

/-- Concrete instantiation of claim C8 on `docW`. -/
theorem find_job_containers_spec_witness :
    find_job_containers docW = containerTags.flatMap (fun t =>
      (findAll t docW).filter (fun node =>
        has_class_like node jobSubs && hasAnchorDesc node)) :=
  (find_job_containers_spec docW (by decide)).1
